import Mathlib

/-!
Verification of the eth-on-bzz mutable key-value store (bzzdb) against its
specification.

The development shallowly embeds the Go sources:
- `pkg/client/helpers.go` (reference derivation: FeedID, FeedUpdateReference,
  PayloadWithTime, RawDataFromSocResp),
- the feed indexer (`FeedIndexer.AcquireNext`, `Release`, `Current`,
  `newFeedIndexData`),
- the orchestrator `pkg/bzzdb/bzzdb.go` (`Has`, `Get`, `Put`, `Delete`,
  `uploadAsync`, `makeTopic`),
- `pkg/postage/postage.go` (`CurrentBatchID`, `fetchFirstUsableStamp`).

Byte strings are `List Nat`.  The keccak hash is an external collaborator and
is modelled as a parameter `H : Bytes → Bytes`.  The Bee node is modelled from
the `client.Client` interface contract: a content-addressed blob store
(`UploadBytes`/`DownloadBytes` via the /bytes endpoint), a single-owner-chunk
store addressed by hash(socID ++ owner) (`UploadSoc`/`DownloadChunk`), and the
node's feed-index bookkeeping (`FeedIndexLatest`), which the spec treats as an
external collaborator.  Go's nil/non-nil `[]byte` distinction is modelled by
`Option`.  Functions that cannot fail in the model are total; fallible results
use `Except`/`Option`.
-/

namespace EthOnBzz

/-- Byte strings (`[]byte` in Go). Each element is one byte value. -/
abbrev Bytes := List Nat

/-- `binary.BigEndian.PutUint64`: big-endian 8-byte encoding of an integer,
reduced modulo 2^64 as Go's uint64 conversion does. -/
def beUint64 (n : Nat) : Bytes :=
  let m := n % 2 ^ 64
  [m / 2 ^ 56 % 256, m / 2 ^ 48 % 256, m / 2 ^ 40 % 256, m / 2 ^ 32 % 256,
   m / 2 ^ 24 % 256, m / 2 ^ 16 % 256, m / 2 ^ 8 % 256, m % 256]

/-- `binary.LittleEndian.PutUint64`: little-endian 8-byte encoding, used for
the span header of a content-addressed chunk (`cac.New` in the bee library). -/
def leUint64 (n : Nat) : Bytes :=
  let m := n % 2 ^ 64
  [m % 256, m / 2 ^ 8 % 256, m / 2 ^ 16 % 256, m / 2 ^ 24 % 256,
   m / 2 ^ 32 % 256, m / 2 ^ 40 % 256, m / 2 ^ 48 % 256, m / 2 ^ 56 % 256]

/-- `swarm.HashSize` (32 bytes). -/
def hashSize : Nat := 32

/-- `swarm.SocSignatureSize` (65 bytes). -/
def socSignatureSize : Nat := 65

/-- `swarm.SpanSize` (8 bytes). -/
def spanSize : Nat := 8

/-- `zeroSocData = make([]byte, swarm.HashSize)` from bzzdb.go: the all-zero
deletion sentinel reference. -/
def zeroSocData : Bytes := List.replicate hashSize 0

/-- `keyPrefix = []byte("bzzdb-")` from bzzdb.go, as byte values. -/
def keyPfx : Bytes := [98, 122, 122, 100, 98, 45]

/-- 2^64: the modulus of Go's `uint64` arithmetic (`type Index = uint64`). -/
def u64Mod : Nat := 2 ^ 64

/-- `makeTopic` from bzzdb.go: appends the namespace prefix and the key and
hashes the result with `crypto.LegacyKeccak256`. -/
def makeTopic (H : Bytes → Bytes) (key : Bytes) : Bytes :=
  H (([] ++ keyPfx) ++ key)

/-- `client.FeedID` from helpers.go: hash(topic ++ bigEndianUint64(index)). -/
def FeedID (H : Bytes → Bytes) (topic : Bytes) (index : Nat) : Bytes :=
  H (topic ++ beUint64 index)

/-- `client.FeedUpdateReference` from helpers.go:
hash(FeedID(topic, index) ++ ownerBytes). -/
def FeedUpdateReference (H : Bytes → Bytes) (owner topic : Bytes) (index : Nat) : Bytes :=
  H (FeedID H topic index ++ owner)

/-- `client.PayloadWithTime` from helpers.go: 8-byte big-endian unix timestamp
followed by the payload. -/
def PayloadWithTime (payload : Bytes) (t : Nat) : Bytes :=
  beUint64 t ++ payload

/-- Modelled from the spec: `client.PayloadStripTime` is called by
bzzdb.Get but its definition is not among the provided sources; the spec
(§4.4 Get step 3) says it strips the 8-byte timestamp prefix added by
`PayloadWithTime`, recovering the blob reference. -/
def PayloadStripTime (payload : Bytes) : Bytes :=
  payload.drop 8

/-- `client.RawDataFromSocResp` (named `RawDataFromSOCResp` in helpers.go):
drops the span + hash + signature header of a single-owner-chunk response. -/
def RawDataFromSocResp (resp : Bytes) : Bytes :=
  resp.drop (spanSize + hashSize + socSignatureSize)

/-- The canonical single-chunk content envelope produced by `cac.New` and
returned by `client.SignSocData` as `ch.Data()`: an 8-byte little-endian span
(payload length) followed by the payload. -/
def cacData (payload : Bytes) : Bytes :=
  leUint64 payload.length ++ payload

/-- `makeSOCData` from the mock client: the wire form of a stored SOC, a
(hash + signature)-sized header followed by the chunk data. -/
def makeSOCData (data : Bytes) : Bytes :=
  List.replicate (hashSize + socSignatureSize) 0 ++ data

/-- `client.FeedIndexResponse`: the node's view of a feed's latest index. -/
structure FeedIndexResponse where
  Current : Nat
  Next : Nat
deriving DecidableEq

/-- `feedIndexData` from the feed indexer: per-topic allocator state,
`current *Index` (nullable) and `next Index`. -/
structure FeedIndexData where
  current : Option Nat
  next : Nat
deriving DecidableEq

/-- `newFeedIndexData` from the feed indexer: a `{0, 0}` response means the
topic has never been written (current is nil); otherwise the node's values are
taken as is. -/
def newFeedIndexData (resp : FeedIndexResponse) : FeedIndexData :=
  if resp.Current = 0 ∧ resp.Next = 0 then
    ⟨none, 0⟩
  else
    ⟨some resp.Current, resp.Next⟩

/-- The indexer's per-topic map (`indexMap map[string]*feedIndexData`; the
hex-string key of the Go map is an injective image of the topic bytes, so the
model keys directly by the topic bytes). -/
abbrev IndexMap := Bytes → Option FeedIndexData

/-- Pointwise map update (Go map assignment `m[k] = v`). -/
def upd {α : Type} (m : Bytes → Option α) (k : Bytes) (v : α) : Bytes → Option α :=
  fun t => if t = k then some v else m t

namespace FeedIndexer

/-- `FeedIndexer.AcquireNext` (sequential semantics: every access to the map
happens under the indexer's mutex, so any concurrent execution is equivalent
to some sequential order of these atomic steps; the unseen-topic path is
primed from the node's `FeedIndexLatest` response, modelled by `fetch`).
Returns the handed-out index and the updated map.  `next` is a Go `uint64`
and `indexData.next++` wraps modulo 2^64; this variant omits that wrap (it is
the abstraction used by the orchestrator model), and `AcquireNextWrap` below
models the wrap exactly.  The behaviour of the unseen-topic path when a
racing initializer intervenes between the unlock and the re-lock is modelled
separately by `AcquireNextUnseenRelocked`. -/
def AcquireNext (fetch : Bytes → FeedIndexResponse) (m : IndexMap) (topic : Bytes) :
    Nat × IndexMap :=
  match m topic with
  | some d => (d.next, upd m topic ⟨d.current, d.next + 1⟩)
  | none =>
    let d := newFeedIndexData (fetch topic)
    (d.next, upd m topic ⟨d.current, d.next + 1⟩)

/-- `FeedIndexer.AcquireNext` with Go's `uint64` increment modelled exactly:
`indexData.next++` wraps modulo 2^64, so the handed-out index repeats after
2^64 allocations on the same topic. -/
def AcquireNextWrap (fetch : Bytes → FeedIndexResponse) (m : IndexMap) (topic : Bytes) :
    Nat × IndexMap :=
  match m topic with
  | some d => (d.next, upd m topic ⟨d.current, (d.next + 1) % u64Mod⟩)
  | none =>
    let d := newFeedIndexData (fetch topic)
    (d.next, upd m topic ⟨d.current, (d.next + 1) % u64Mod⟩)

/-- The body of `FeedIndexer.Release` acting on one `feedIndexData` entry:
advance `current` to `index` iff `current` is nil or `index > *current`. -/
def releaseData (d : FeedIndexData) (index : Nat) : FeedIndexData :=
  match d.current with
  | none => ⟨some index, d.next⟩
  | some c => if index > c then ⟨some index, d.next⟩ else d

/-- `FeedIndexer.Release`: a no-op when the topic has no entry. -/
def Release (m : IndexMap) (topic : Bytes) (index : Nat) : IndexMap :=
  match m topic with
  | none => m
  | some d => upd m topic (releaseData d index)

/-- The `(index, exists)` pair returned by `FeedIndexer.Current` for a given
entry: `(0, false)` when `current` is nil, `(*current, true)` otherwise. -/
def currentPair (d : FeedIndexData) : Nat × Bool :=
  match d.current with
  | none => (0, false)
  | some c => (c, true)

/-- `FeedIndexer.Current` (sequential semantics, see `AcquireNext`): lazily
initializes an unseen topic from the node, then reports the latest completed
index. -/
def Current (fetch : Bytes → FeedIndexResponse) (m : IndexMap) (topic : Bytes) :
    (Nat × Bool) × IndexMap :=
  match m topic with
  | some d => (currentPair d, m)
  | none =>
    let d := newFeedIndexData (fetch topic)
    (currentPair d, upd m topic d)

/-- Harness: `n` successive `AcquireNextWrap` calls on the same topic,
returning the handed-out indices in allocation order together with the final
map (the wrap-faithful model of `n` sequential `AcquireNext` calls). -/
def acquireRunWrap (fetch : Bytes → FeedIndexResponse) (m : IndexMap) (topic : Bytes) :
    Nat → List Nat × IndexMap
  | 0 => ([], m)
  | Nat.succ n =>
    let p := AcquireNextWrap fetch m topic
    let q := acquireRunWrap fetch p.2 topic n
    (p.1 :: q.1, q.2)

/-- Harness: release a list of indices in order (`Release` per element). -/
def releaseAll (m : IndexMap) (topic : Bytes) (l : List Nat) : IndexMap :=
  l.foldl (fun mm i => Release mm topic i) m

/-- The unseen-topic path of `AcquireNext` with the race made explicit:
the first (locked) lookup missed, the lock was dropped for the node query
(`resp` is its result), and `mRelock` is the map found after re-acquiring the
lock.  The Go code re-checks `i.indexMap[key]` but does **not** re-read the
entry into its local `indexData` variable, so if a racing initializer already
inserted the key, `indexData` remains nil and `indexData.next` dereferences a
nil pointer.  That dereference of an absent entry is modelled as `none`. -/
def AcquireNextUnseenRelocked (resp : FeedIndexResponse) (mRelock : IndexMap)
    (topic : Bytes) : Option (Nat × IndexMap) :=
  let indexData0 : Option FeedIndexData := none
  let s :=
    match mRelock topic with
    | none =>
      let d := newFeedIndexData resp
      ((some d : Option FeedIndexData), upd mRelock topic d)
    | some _ => (indexData0, mRelock)
  match s.1 with
  | none => none
  | some d => some (d.next, upd s.2 topic ⟨d.current, d.next + 1⟩)

/-- The unseen-topic path of `Current` with the race made explicit, structured
exactly like `AcquireNextUnseenRelocked` (the Go code of `Current` has the
same shape and the same missing re-read of the entry). -/
def CurrentUnseenRelocked (resp : FeedIndexResponse) (mRelock : IndexMap)
    (topic : Bytes) : Option ((Nat × Bool) × IndexMap) :=
  let indexData0 : Option FeedIndexData := none
  let s :=
    match mRelock topic with
    | none =>
      let d := newFeedIndexData resp
      ((some d : Option FeedIndexData), upd mRelock topic d)
    | some _ => (indexData0, mRelock)
  match s.1 with
  | none => none
  | some d => some (currentPair d, s.2)

/-- The `current`-field action of `releaseData`, used in proofs. -/
def relStep (o : Option Nat) (i : Nat) : Option Nat :=
  match o with
  | none => some i
  | some c => if i > c then some i else o

end FeedIndexer

/-- The Bee node, modelled from the `client.Client` interface contract:
a content-addressed blob store (the /bytes endpoint), the stored
single-owner chunks keyed by their address (the /chunks endpoint), and the
node's feed-index bookkeeping (served by `FeedIndexLatest`), which the spec
treats as external collaborator state. -/
structure NodeState where
  blobs : Bytes → Option Bytes
  socs : Bytes → Option Bytes
  feedLatest : Bytes → FeedIndexResponse

/-- `client.UploadBytes`: stores the data at its content address `H data` and
returns the reference. -/
def UploadBytes (H : Bytes → Bytes) (st : NodeState) (data : Bytes) : NodeState × Bytes :=
  let addr := H data
  ({st with blobs := upd st.blobs addr data}, addr)

/-- `client.DownloadBytes`: fetches a blob by reference; absent means the
node reports `client.ErrNotFound`. -/
def DownloadBytes (st : NodeState) (addr : Bytes) : Option Bytes :=
  st.blobs addr

/-- `client.UploadSoc`: stores the single-owner chunk wire data at the SOC
address `H (socID ++ owner)` (the mock's `newSocAddresser`) and records it in
the node's feed bookkeeping. -/
def UploadSoc (H : Bytes → Bytes) (owner : Bytes) (st : NodeState) (socID data : Bytes) :
    NodeState × Bytes :=
  let addr := H (socID ++ owner)
  ({st with socs := upd st.socs addr (makeSOCData data)}, addr)

/-- `client.DownloadChunk`: fetches a stored chunk by address. -/
def DownloadChunk (st : NodeState) (addr : Bytes) : Option Bytes :=
  st.socs addr

/-- The orchestrator state: the feed indexer's map plus the node. -/
structure DBState where
  indexMap : IndexMap
  node : NodeState

/-- The error kinds `Get`/`Has` distinguish: `errBzzDBNotFound` from
bzzdb.go, `client.ErrNotFound` from the transport, and any other error. -/
inductive BzzErr where
  | notFound
  | clientNotFound
  | other
deriving DecidableEq

/-- `uploadAsync` from bzzdb.go: a nil value skips the network upload and
yields the all-zero sentinel reference; otherwise the value is uploaded as a
blob and its content address returned. -/
def uploadAsync (H : Bytes → Bytes) (node : NodeState) (value : Option Bytes) :
    NodeState × Bytes :=
  match value with
  | none => (node, zeroSocData)
  | some v => UploadBytes H node v

/-- `bzzdb.Put`: upload (or skip for nil), derive the topic, acquire the next
index, build the timestamped payload around the blob reference (timestamp
fixed to `time.Unix(0, 0)`), publish the signed chunk at the derived SOC
identifier, and release the index (the Go `defer` runs after `UploadSoc`).
With the always-succeeding node model every step succeeds. -/
def dbPut (H : Bytes → Bytes) (owner : Bytes) (st : DBState) (key : Bytes)
    (value : Option Bytes) : DBState :=
  let up := uploadAsync H st.node value
  let topic := makeTopic H key
  let acq := FeedIndexer.AcquireNext up.1.feedLatest st.indexMap topic
  let socID := FeedID H topic acq.1
  let payload := PayloadWithTime up.2 0
  let data := cacData payload
  let pub := UploadSoc H owner up.1 socID data
  ⟨FeedIndexer.Release acq.2 topic acq.1, pub.1⟩

/-- `bzzdb.Delete`: `db.Put(key, nil)`. -/
def dbDelete (H : Bytes → Bytes) (owner : Bytes) (st : DBState) (key : Bytes) : DBState :=
  dbPut H owner st key none

/-- `bzzdb.Get`: read the latest completed index (lazily priming the
indexer), resolve the update at the derived reference, strip the SOC header
and the timestamp, compare against the deletion sentinel, then download the
blob. -/
def dbGet (H : Bytes → Bytes) (owner : Bytes) (st : DBState) (key : Bytes) :
    Except BzzErr Bytes × DBState :=
  let topic := makeTopic H key
  let cur := FeedIndexer.Current st.node.feedLatest st.indexMap topic
  let st1 : DBState := ⟨cur.2, st.node⟩
  if cur.1.2 = false then (.error .notFound, st1)
  else
    let ref := FeedUpdateReference H owner topic cur.1.1
    match DownloadChunk st1.node ref with
    | none => (.error .clientNotFound, st1)
    | some respData =>
      let stripped := PayloadStripTime (RawDataFromSocResp respData)
      if stripped = zeroSocData then (.error .notFound, st1)
      else
        match DownloadBytes st1.node stripped with
        | none => (.error .clientNotFound, st1)
        | some v => (.ok v, st1)

/-- The error handling of `bzzdb.Has` as a function of `Get`'s outcome:
`errBzzDBNotFound` and `client.ErrNotFound` become `(false, nil)`, any other
error propagates unchanged, success becomes `(true, nil)`. -/
def hasFromGet (r : Except BzzErr Bytes) : Except BzzErr Bool :=
  match r with
  | .error e => if e = .notFound ∨ e = .clientNotFound then .ok false else .error e
  | .ok _ => .ok true

/-- `bzzdb.Has`: calls `Get` and post-processes its result. -/
def dbHas (H : Bytes → Bytes) (owner : Bytes) (st : DBState) (key : Bytes) :
    Except BzzErr Bool × DBState :=
  let g := dbGet H owner st key
  (hasFromGet g.1, g.2)

/-- Well-formedness of a node feed-index response: either the
"never written" convention `{0, 0}` or `Current < Next` (as produced by the
node: current = count-1, next = count). -/
def respWF (r : FeedIndexResponse) : Prop :=
  (r.Current = 0 ∧ r.Next = 0) ∨ r.Current < r.Next

/-- Well-formedness of an allocator entry: a set `current` is below `next`. -/
def dataWF (d : FeedIndexData) : Prop :=
  ∀ c, d.current = some c → c < d.next

/-- Invariant of reachable orchestrator states: every allocator entry and
every node response is well formed. -/
def dbWF (st : DBState) : Prop :=
  (∀ t d, st.indexMap t = some d → dataWF d) ∧ (∀ t, respWF (st.node.feedLatest t))

/-! Postage (storage ticket cache), from pkg/postage/postage.go.  The
collaborator's answers for the one `Stamps` listing call and the one
`BuyStamp` call a `CurrentBatchID` invocation can make are passed as
parameters; the output records the result, the cache field after the call and
how many listing/purchase calls were issued. -/

/-- The error kinds of the postage path: a node (transport) error, or the
local `errNoUsableBatch`. -/
inductive PostageErr where
  | nodeErr (code : Nat)
  | noUsableBatch
deriving DecidableEq

/-- The fields of `client.Stamp` that `fetchFirstUsableStamp` inspects. -/
structure Stamp where
  BatchID : String
  Usable : Bool
  Exists : Bool
deriving DecidableEq

/-- `fetchFirstUsableStamp`: list the stamps and pick the first one that is
both usable and existing; `errNoUsableBatch` when none qualifies. -/
def fetchFirstUsableStamp (stampsResp : Except PostageErr (List Stamp)) :
    Except PostageErr String :=
  match stampsResp with
  | .error e => .error e
  | .ok stamps =>
    match stamps.find? (fun st => st.Usable && st.Exists) with
    | some st => .ok st.BatchID
    | none => .error .noUsableBatch

/-- Outcome of one `CurrentBatchID` call: its result, the cached batch ID
afterwards ("" means unset, as in the Go code), and the number of `Stamps`
and `BuyStamp` calls made to the transport collaborator. -/
structure CBIDOut where
  result : Except PostageErr String
  cache : String
  stampsCalls : Nat
  buyCalls : Nat

/-- `postage.CurrentBatchID`: serve the cached ID if set; otherwise try
discovery via `fetchFirstUsableStamp`, and on **any** discovery failure fall
back to `BuyStamp`; cache on success, leave the cache unchanged on failure. -/
def CurrentBatchID (cached : String) (stampsResp : Except PostageErr (List Stamp))
    (buyResp : Except PostageErr String) : CBIDOut :=
  if cached ≠ "" then ⟨.ok cached, cached, 0, 0⟩
  else
    match fetchFirstUsableStamp stampsResp with
    | .ok b => ⟨.ok b, b, 1, 0⟩
    | .error _ =>
      match buyResp with
      | .error e => ⟨.error e, cached, 1, 1⟩
      | .ok b => ⟨.ok b, b, 1, 1⟩

/-! Spec-side derivation functions, written from the words of the spec (§6
"Bit-exact derivation requirements") for the refinement claim C2. -/

/-- Spec: Topic = Hash("bzzdb-" ++ key), the prefix taken as the bytes of the
string literal. -/
def spec_Topic (H : Bytes → Bytes) (key : Bytes) : Bytes :=
  H (("bzzdb-".toList.map Char.toNat) ++ key)

/-- Spec: FeedUpdateID = Hash(topic ++ bigEndianUint64(index)). -/
def spec_FeedUpdateID (H : Bytes → Bytes) (topic : Bytes) (index : Nat) : Bytes :=
  H (topic ++ beUint64 index)

/-- Spec: UpdateReference = Hash(FeedUpdateID ++ ownerBytes). -/
def spec_UpdateReference (H : Bytes → Bytes) (owner topic : Bytes) (index : Nat) : Bytes :=
  H ( spec_FeedUpdateID H topic index ++ owner)

/-! Concrete fixtures for witnesses. -/

/-- A concrete injective stand-in for the hash collaborator. -/
def Hc : Bytes → Bytes := fun b => 1 :: b

/-- A concrete 20-byte owner address. -/
def owner0 : Bytes := List.replicate 20 7

/-- An empty node: no blobs, no chunks, every feed reports `{0, 0}`. -/
def node0 : NodeState := ⟨fun _ => none, fun _ => none, fun _ => ⟨0, 0⟩⟩

/-- A fresh orchestrator state over the empty node. -/
def st0 : DBState := ⟨fun _ => none, node0⟩

/-! ### Basic lemmas about the map and byte-string helpers -/

theorem upd_same {α : Type} (m : Bytes → Option α) (k : Bytes) (v : α) :
    upd m k v k = some v := by
  simp [upd]

theorem upd_upd {α : Type} (m : Bytes → Option α) (k : Bytes) (a b : α) :
    upd (upd m k a) k b = upd m k b := by
  funext t
  by_cases ht : t = k <;> simp [upd, ht]

theorem upd_self {α : Type} (m : Bytes → Option α) (k : Bytes) (v : α)
    (h : m k = some v) : upd m k v = m := by
  funext t
  by_cases ht : t = k
  · subst ht; simp [upd, h]
  · simp [upd, ht]

theorem beUint64_length (n : Nat) : (beUint64 n).length = 8 := rfl

theorem leUint64_length (n : Nat) : (leUint64 n).length = 8 := rfl

/-- Stripping the span + hash + signature header of a stored SOC recovers the
signed chunk's payload. -/
theorem rawData_mkSoc (p : Bytes) :
    RawDataFromSocResp (makeSOCData (cacData p)) = p := by
  simp only [RawDataFromSocResp, makeSOCData, cacData]
  rw [← List.append_assoc]
  have h : spanSize + hashSize + socSignatureSize =
      (List.replicate (hashSize + socSignatureSize) 0 ++ leUint64 p.length).length := by
    simp [hashSize, socSignatureSize, spanSize, leUint64]
  rw [h, List.drop_left]

/-- Stripping the timestamp prefix recovers the embedded reference. -/
theorem stripTime (r : Bytes) (t : Nat) :
    PayloadStripTime (PayloadWithTime r t) = r := by
  simp only [PayloadStripTime, PayloadWithTime]
  have h : 8 = (beUint64 t).length := rfl
  rw [h, List.drop_left]

/-! ### Feed indexer lemmas -/

namespace FeedIndexer

theorem relStep_eq (o : Option Nat) (i : Nat) :
    relStep o i = some (Nat.max (o.getD i) i) := by
  rcases o with _ | c
  · simp [relStep]
  · simp only [relStep, Option.getD_some]
    split_ifs with h
    · exact congrArg some (Nat.max_eq_right (Nat.le_of_lt h)).symm
    · exact congrArg some (Nat.max_eq_left (Nat.le_of_not_lt h)).symm

theorem relStep_rcomm (z : Option Nat) (x y : Nat) :
    relStep (relStep z x) y = relStep (relStep z y) x := by
  rcases z with _ | c <;>
    simp only [relStep_eq, Option.getD_some, Option.getD_none] <;> congr 1 <;>
    simp only [Nat.max_def] <;> split_ifs <;> omega

theorem releaseData_current (d : FeedIndexData) (i : Nat) :
    (releaseData d i).current = relStep d.current i := by
  rcases hc : d.current with _ | c
  · simp [releaseData, relStep, hc]
  · simp only [releaseData, relStep, hc]
    split_ifs <;> simp [hc]

theorem releaseData_next (d : FeedIndexData) (i : Nat) :
    (releaseData d i).next = d.next := by
  rcases hc : d.current with _ | c
  · simp [releaseData, hc]
  · simp only [releaseData, hc]
    split_ifs <;> rfl

theorem foldl_releaseData_current (l : List Nat) :
    ∀ d : FeedIndexData, (l.foldl releaseData d).current = l.foldl relStep d.current := by
  induction l with
  | nil => intro d; rfl
  | cons i l ih =>
    intro d
    simp only [List.foldl_cons, ih, releaseData_current]

theorem foldl_relStep_range (N : Nat) (h : 0 < N) :
    (List.range N).foldl relStep none = some (N - 1) := by
  induction N with
  | zero => omega
  | succ n ih =>
    rw [List.range_succ, List.foldl_append]
    rcases Nat.eq_zero_or_pos n with h0 | hp
    · subst h0
      simp [relStep]
    · rw [ih hp]
      simp only [List.foldl_cons, List.foldl_nil, relStep_eq, Option.getD_some]
      congr 1
      simp only [Nat.max_def]
      split_ifs <;> omega

theorem foldl_relStep_perm {l : List Nat} {N : Nat} (hp : l.Perm (List.range N))
    (h0 : 0 < N) : l.foldl relStep none = some (N - 1) := by
  rw [List.Perm.foldl_eq' hp (fun x _ y _ z => relStep_rcomm z x y) none]
  exact foldl_relStep_range N h0

theorem Release_lookup (m : IndexMap) (topic : Bytes) (d : FeedIndexData) (i : Nat)
    (h : m topic = some d) :
    Release m topic i = upd m topic (releaseData d i) := by
  simp [Release, h]

theorem releaseAll_eq (topic : Bytes) (l : List Nat) :
    ∀ (m : IndexMap) (d : FeedIndexData), m topic = some d →
      releaseAll m topic l = upd m topic (l.foldl releaseData d) := by
  induction l with
  | nil =>
    intro m d h
    simp only [releaseAll, List.foldl_nil]
    exact (upd_self m topic d h).symm
  | cons i l ih =>
    intro m d h
    simp only [releaseAll, List.foldl_cons] at ih ⊢
    rw [Release_lookup m topic d i h]
    rw [ih (upd m topic (releaseData d i)) (releaseData d i) (upd_same m topic _)]
    rw [upd_upd]

theorem AcquireNext_present (fetch : Bytes → FeedIndexResponse) (m : IndexMap)
    (topic : Bytes) (d : FeedIndexData) (h : m topic = some d) :
    AcquireNext fetch m topic = (d.next, upd m topic ⟨d.current, d.next + 1⟩) := by
  simp [AcquireNext, h]

theorem AcquireNext_unseen (fetch : Bytes → FeedIndexResponse) (m : IndexMap)
    (topic : Bytes) (h : m topic = none) :
    AcquireNext fetch m topic =
      ((newFeedIndexData (fetch topic)).next,
       upd m topic ⟨(newFeedIndexData (fetch topic)).current,
                    (newFeedIndexData (fetch topic)).next + 1⟩) := by
  simp [AcquireNext, h]

theorem Current_present (fetch : Bytes → FeedIndexResponse) (m : IndexMap)
    (topic : Bytes) (d : FeedIndexData) (h : m topic = some d) :
    Current fetch m topic = (currentPair d, m) := by
  simp [Current, h]

theorem Current_unseen (fetch : Bytes → FeedIndexResponse) (m : IndexMap)
    (topic : Bytes) (h : m topic = none) :
    Current fetch m topic =
      (currentPair (newFeedIndexData (fetch topic)),
       upd m topic (newFeedIndexData (fetch topic))) := by
  simp [Current, h]

theorem newFeedIndexData_zero : newFeedIndexData ⟨0, 0⟩ = ⟨none, 0⟩ := by
  simp [newFeedIndexData]

theorem AcquireNextWrap_present (fetch : Bytes → FeedIndexResponse) (m : IndexMap)
    (topic : Bytes) (d : FeedIndexData) (h : m topic = some d) :
    AcquireNextWrap fetch m topic =
      (d.next, upd m topic ⟨d.current, (d.next + 1) % u64Mod⟩) := by
  simp [AcquireNextWrap, h]

theorem AcquireNextWrap_unseen (fetch : Bytes → FeedIndexResponse) (m : IndexMap)
    (topic : Bytes) (h : m topic = none) :
    AcquireNextWrap fetch m topic =
      ((newFeedIndexData (fetch topic)).next,
       upd m topic ⟨(newFeedIndexData (fetch topic)).current,
                    ((newFeedIndexData (fetch topic)).next + 1) % u64Mod⟩) := by
  simp [AcquireNextWrap, h]

theorem u64Mod_pos : 0 < u64Mod := by
  norm_num [u64Mod]

/-- A run of `n` wrap-faithful acquire steps over a present entry whose
stored `next` plus `n` stays within 2^64: the handed-out indices are
`next, ..., next+n-1` and the stored `next` becomes `(next + n) % 2^64`
(the wrap can strike exactly at the last increment). -/
theorem acquireRunWrap_present (fetch : Bytes → FeedIndexResponse) (topic : Bytes) (n : Nat) :
    ∀ (m : IndexMap) (d : FeedIndexData), m topic = some d → d.next < u64Mod →
      d.next + n ≤ u64Mod →
      acquireRunWrap fetch m topic n =
        (List.range' d.next n, upd m topic ⟨d.current, (d.next + n) % u64Mod⟩) := by
  induction n with
  | zero =>
    intro m d h hd _
    simp only [acquireRunWrap, List.range']
    rw [Nat.add_zero, Nat.mod_eq_of_lt hd]
    exact congrArg _ (upd_self m topic d h).symm
  | succ n ih =>
    intro m d h hd hn
    simp only [acquireRunWrap, AcquireNextWrap_present fetch m topic d h]
    rw [ih (upd m topic ⟨d.current, (d.next + 1) % u64Mod⟩) ⟨d.current, (d.next + 1) % u64Mod⟩
      (upd_same m topic _) (Nat.mod_lt _ u64Mod_pos)
      (le_trans (Nat.add_le_add_right (Nat.mod_le _ _) n) (by omega))]
    rw [upd_upd, List.range'_succ]
    rcases Nat.eq_zero_or_pos n with h0 | hpos
    · subst h0
      simp only [List.range', Nat.add_zero, Nat.zero_add]
      rw [Nat.mod_eq_of_lt (Nat.mod_lt _ u64Mod_pos)]
    · have hlt : d.next + 1 < u64Mod := by omega
      rw [Nat.mod_eq_of_lt hlt]
      have harith : d.next + 1 + n = d.next + (n + 1) := by omega
      rw [harith]

/-- Splitting a wrap-faithful run: `a + b` acquire calls are `a` calls
followed by `b` calls on the resulting map, with the index lists appended. -/
theorem acquireRunWrap_add (fetch : Bytes → FeedIndexResponse) (topic : Bytes) (b : Nat) :
    ∀ (a : Nat) (m : IndexMap),
      acquireRunWrap fetch m topic (a + b) =
        ((acquireRunWrap fetch m topic a).1 ++
           (acquireRunWrap fetch (acquireRunWrap fetch m topic a).2 topic b).1,
         (acquireRunWrap fetch (acquireRunWrap fetch m topic a).2 topic b).2) := by
  intro a
  induction a with
  | zero =>
    intro m
    simp [acquireRunWrap]
  | succ a ih =>
    intro m
    have hstep : a + 1 + b = (a + b) + 1 := by omega
    rw [hstep]
    simp only [acquireRunWrap]
    rw [ih]
    simp [List.cons_append]

/-- A wrap-faithful run of `n ≤ 2^64` calls from an unseen topic primed by a
`{0, 0}` response hands out `0, ..., n-1` and stores `next = n % 2^64`. -/
theorem acquireRunWrap_unseen (fetch : Bytes → FeedIndexResponse) (m : IndexMap)
    (topic : Bytes) (n : Nat) (h : m topic = none) (hf : fetch topic = ⟨0, 0⟩)
    (hn : n ≤ u64Mod) :
    (acquireRunWrap fetch m topic n).1 = List.range n ∧
      (0 < n → (acquireRunWrap fetch m topic n).2 = upd m topic ⟨none, n % u64Mod⟩) := by
  cases n with
  | zero => exact ⟨rfl, fun h0 => absurd h0 (by omega)⟩
  | succ k =>
    have h2 : (0 + 1) % u64Mod = 1 := by norm_num [u64Mod]
    have h1 : AcquireNextWrap fetch m topic = (0, upd m topic ⟨none, (0 + 1) % u64Mod⟩) := by
      rw [AcquireNextWrap_unseen fetch m topic h, hf, newFeedIndexData_zero]
    rw [h2] at h1
    have h3 := acquireRunWrap_present fetch topic k (upd m topic ⟨none, 1⟩)
      ⟨none, 1⟩ (upd_same m topic _) (by show (1 : Nat) < u64Mod; norm_num [u64Mod])
      (by show 1 + k ≤ u64Mod; omega)
    constructor
    · simp only [acquireRunWrap, h1, h3]
      rw [List.range_eq_range', List.range'_succ]
    · intro _
      simp only [acquireRunWrap, h1, h3, upd_upd]
      have harith : 1 + k = k + 1 := by omega
      rw [harith]

end FeedIndexer

/-! ### C2: reference derivation is pure and bit-exact -/

/-- C2: the derivation functions are bit-exact refinements of the spec's
derivation rules: `makeTopic` hashes `"bzzdb-" ++ key`, `FeedID` hashes
`topic ++ bigEndianUint64 index`, and `FeedUpdateReference` hashes
`FeedID(topic, index) ++ ownerBytes`.  All three are pure functions of their
arguments (they are Lean functions of exactly these inputs), so repeated
calls return identical output. -/
theorem derivation_bit_exact (H : Bytes → Bytes) (owner key topic : Bytes) (index : Nat) :
    makeTopic H key = spec_Topic H key ∧
    FeedID H topic index = spec_FeedUpdateID H topic index ∧
    FeedUpdateReference H owner topic index = spec_UpdateReference H owner topic index := by
  refine ⟨?_, rfl, rfl⟩
  unfold makeTopic spec_Topic
  refine congrArg H (congrArg (· ++ key) ?_)
  decide

/-! ### C3: index allocation hands out a gap-free increasing sequence -/

/-- Counterexample to C3 as stated: the Go `Index` is a `uint64`, so
`indexData.next++` wraps modulo 2^64 — the 2^64+1-th `AcquireNext` call on a
fresh `{0, 0}`-primed topic hands out index 0 a second time: the run of
`2^64 + 1` calls returns `0, ..., 2^64-1, 0`, which has a duplicate, so
"each exactly once / never reused while the instance is alive" fails for
`N = 2^64 + 1`. -/
theorem acquireNext_wraps_after_u64 :
    (FeedIndexer.acquireRunWrap (fun _ => ⟨0, 0⟩) (fun _ => none) [9] (u64Mod + 1)).1 =
      List.range u64Mod ++ [0] ∧
    ¬ (FeedIndexer.acquireRunWrap (fun _ => ⟨0, 0⟩) (fun _ => none) [9]
        (u64Mod + 1)).1.Nodup := by
  have hrun1 := FeedIndexer.acquireRunWrap_unseen (fun _ => ⟨0, 0⟩) (fun _ => none) [9]
    u64Mod rfl rfl (Nat.le_refl u64Mod)
  have hmap : (FeedIndexer.acquireRunWrap (fun _ => ⟨0, 0⟩) (fun _ => none) [9] u64Mod).2 =
      upd (fun _ => none) [9] ⟨none, 0⟩ := by
    rw [hrun1.2 (by norm_num [u64Mod]), Nat.mod_self]
  have hadd := FeedIndexer.acquireRunWrap_add (fun _ => ⟨0, 0⟩) [9] 1 u64Mod (fun _ => none)
  have hrun2 : (FeedIndexer.acquireRunWrap (fun _ => ⟨0, 0⟩)
      (upd (fun _ => none) [9] ⟨none, 0⟩) [9] 1).1 = [0] := by
    rw [FeedIndexer.acquireRunWrap_present (fun _ => ⟨0, 0⟩) [9] 1
      (upd (fun _ => none) [9] ⟨none, 0⟩) ⟨none, 0⟩ (upd_same _ _ _) FeedIndexer.u64Mod_pos
      (by show 0 + 1 ≤ u64Mod; norm_num [u64Mod])]
    rfl
  have heq : (FeedIndexer.acquireRunWrap (fun _ => ⟨0, 0⟩) (fun _ => none) [9]
      (u64Mod + 1)).1 = List.range u64Mod ++ [0] := by
    rw [hadd]
    dsimp only
    rw [hmap, hrun1.1, hrun2]
  refine ⟨heq, ?_⟩
  rw [heq]
  intro h
  rw [List.nodup_append] at h
  exact h.2.2 (List.mem_range.mpr (by norm_num [u64Mod])) (List.mem_singleton_self 0)

/-- C3 (amended): starting from an unseen topic primed by a
`{current: 0, next: 0}` node response, `N ≤ 2^64` successive `AcquireNext`
calls return exactly the indices `0, ..., N-1` in allocation order (no
duplicates, no gaps, strictly increasing), and any `M` further calls with
`N + M ≤ 2^64` return `N, ..., N+M-1` — an index handed out is never reused
while the indexer instance is alive and fewer than 2^64 indices have been
handed out for the topic (the `uint64` sequence wraps after 2^64
allocations). -/
theorem acquireNext_monotone_gap_free (fetch : Bytes → FeedIndexResponse)
    (m : IndexMap) (topic : Bytes) (N : Nat)
    (hm : m topic = none) (hf : fetch topic = ⟨0, 0⟩) (hN : N ≤ u64Mod) :
    (FeedIndexer.acquireRunWrap fetch m topic N).1 = List.range N ∧
    (FeedIndexer.acquireRunWrap fetch m topic N).1.Nodup ∧
    List.Pairwise (· < ·) (FeedIndexer.acquireRunWrap fetch m topic N).1 ∧
    (∀ M : Nat, N + M ≤ u64Mod →
      (FeedIndexer.acquireRunWrap fetch (FeedIndexer.acquireRunWrap fetch m topic N).2
        topic M).1 = List.range' N M) := by
  obtain ⟨h1, h2⟩ := FeedIndexer.acquireRunWrap_unseen fetch m topic N hm hf hN
  refine ⟨h1, h1 ▸ List.nodup_range N, h1 ▸ List.pairwise_lt_range N, ?_⟩
  intro M hM
  rcases Nat.eq_zero_or_pos N with h0 | hp
  · subst h0
    have := (FeedIndexer.acquireRunWrap_unseen fetch
      (FeedIndexer.acquireRunWrap fetch m topic 0).2 topic M hm hf (by omega)).1
    rw [this, List.range_eq_range']
  · rw [h2 hp]
    rcases Nat.lt_or_ge N u64Mod with hNlt | hNge
    · rw [Nat.mod_eq_of_lt hNlt]
      rw [FeedIndexer.acquireRunWrap_present fetch topic M (upd m topic ⟨none, N⟩) ⟨none, N⟩
        (upd_same m topic _) hNlt (by show N + M ≤ u64Mod; omega)]
    · have hM0 : M = 0 := by omega
      subst hM0
      rfl

/-- Witness for the amended C3 at a concrete fresh indexer: three calls hand
out `[0, 1, 2]`. -/
theorem acquireNext_monotone_gap_free_witness :
    ((fun _ => none : IndexMap) [9] = none) ∧
    ((fun _ => (⟨0, 0⟩ : FeedIndexResponse)) [9] = ⟨0, 0⟩) ∧
    3 ≤ u64Mod ∧
    (FeedIndexer.acquireRunWrap (fun _ => ⟨0, 0⟩) (fun _ => none) [9] 3).1 = List.range 3 :=
  ⟨rfl, rfl, by norm_num [u64Mod],
    (acquireNext_monotone_gap_free (fun _ => ⟨0, 0⟩) (fun _ => none) [9] 3 rfl rfl
      (by norm_num [u64Mod])).1⟩

/-! ### C4: releasing advances `current` to the maximum, monotonically -/

theorem relStep_mono_aux (c i : Nat) : c ≤ Nat.max c i := by
  simp only [Nat.max_def]
  split_ifs <;> omega

theorem foldl_relStep_mono (l : List Nat) :
    ∀ c : Nat, ∃ c', l.foldl FeedIndexer.relStep (some c) = some c' ∧ c ≤ c' := by
  induction l with
  | nil => intro c; exact ⟨c, rfl, Nat.le_refl c⟩
  | cons i l ih =>
    intro c
    obtain ⟨c', h1, h2⟩ := ih (Nat.max c i)
    refine ⟨c', ?_, Nat.le_trans (relStep_mono_aux c i) h2⟩
    rw [List.foldl_cons, FeedIndexer.relStep_eq, Option.getD_some, h1]

/-- C4: for a topic whose entry holds `current = none` (all of `0..N-1` still
in flight), releasing the indices `0..N-1` in any order leaves
`Current(topic) = (N-1, true)`; once `current` holds a value it never
decreases under further `Release` calls; and `Release(topic, i)` changes
nothing unless `current` is unset or `i` exceeds the stored current. -/
theorem release_advances_current (fetch : Bytes → FeedIndexResponse) (m : IndexMap)
    (topic : Bytes) (d : FeedIndexData) (l : List Nat) (N : Nat)
    (hm : m topic = some d) :
    (d.current = none → l.Perm (List.range N) → 0 < N →
      (FeedIndexer.Current fetch (FeedIndexer.releaseAll m topic l) topic).1 = (N - 1, true)) ∧
    (∀ c, d.current = some c →
      ∃ c', (FeedIndexer.Current fetch (FeedIndexer.releaseAll m topic l) topic).1 = (c', true)
        ∧ c ≤ c') ∧
    (∀ i c, d.current = some c → i ≤ c → FeedIndexer.Release m topic i = m) := by
  have hall := FeedIndexer.releaseAll_eq topic l m d hm
  have hlook : FeedIndexer.releaseAll m topic l topic =
      some (l.foldl FeedIndexer.releaseData d) := by
    rw [hall]
    exact upd_same m topic _
  have hcur := FeedIndexer.foldl_releaseData_current l d
  refine ⟨?_, ?_, ?_⟩
  · intro hc hperm hN
    rw [FeedIndexer.Current_present fetch _ topic _ hlook]
    have h3 : (l.foldl FeedIndexer.releaseData d).current = some (N - 1) := by
      rw [hcur, hc]
      exact FeedIndexer.foldl_relStep_perm hperm hN
    simp [FeedIndexer.currentPair, h3]
  · intro c hc
    obtain ⟨c', h1, h2⟩ := foldl_relStep_mono l c
    refine ⟨c', ?_, h2⟩
    rw [FeedIndexer.Current_present fetch _ topic _ hlook]
    have h3 : (l.foldl FeedIndexer.releaseData d).current = some c' := by
      rw [hcur, hc, h1]
    simp [FeedIndexer.currentPair, h3]
  · intro i c hc hi
    have hrd : FeedIndexer.releaseData d i = d := by
      simp only [FeedIndexer.releaseData, hc]
      rw [if_neg (by omega)]
    rw [FeedIndexer.Release_lookup m topic d i hm, hrd, upd_self m topic d hm]

/-- Witness for C4: releasing `[2, 0, 1]` (a permutation of `0..2`) against a
topic with `current = none` leaves `Current = (2, true)`. -/
theorem release_advances_current_witness :
    ((fun t => if t = [3] then some (⟨none, 3⟩ : FeedIndexData) else none) : IndexMap) [3] =
      some ⟨none, 3⟩ ∧
    List.Perm [2, 0, 1] (List.range 3) ∧
    (FeedIndexer.Current (fun _ => ⟨0, 0⟩)
      (FeedIndexer.releaseAll (fun t => if t = [3] then some ⟨none, 3⟩ else none) [3] [2, 0, 1])
      [3]).1 = (2, true) :=
  ⟨rfl, by decide,
    (release_advances_current (fun _ => ⟨0, 0⟩)
      (fun t => if t = [3] then some ⟨none, 3⟩ else none) [3] ⟨none, 3⟩ [2, 0, 1] 3 rfl).1
      rfl (by decide) (by decide)⟩

/-! ### C5: the double-checked initialization of an unseen topic -/

/-- C5 (refuted; the code has a bug): when the unseen-topic path of
`AcquireNext` (and of `Current`, which has the identical structure)
re-acquires the lock and finds that a racing initializer has already inserted
the entry for the topic, the Go code does not re-read the entry into its
local `indexData` variable, so it dereferences a nil pointer instead of
reusing the racing initializer's entry.  The model evaluates that path to
`none` (panic) at a concrete raced state. -/
theorem feedIndexer_race_nil_deref :
    FeedIndexer.AcquireNextUnseenRelocked ⟨0, 0⟩
      (upd (fun _ => none) [7] ⟨none, 3⟩) [7] = none ∧
    FeedIndexer.CurrentUnseenRelocked ⟨0, 0⟩
      (upd (fun _ => none) [7] ⟨none, 3⟩) [7] = none :=
  ⟨rfl, rfl⟩

/-! ### C6: error propagation in the storage ticket cache -/

/-- Counterexample to C6 as stated: with an empty cache, a node error from
the `Stamps` discovery call does **not** propagate — the code falls back to
`BuyStamp`, and when the purchase succeeds `CurrentBatchID` returns the
bought ID with no error at all. -/
theorem currentBatchID_swallows_discovery_error :
    (CurrentBatchID "" (Except.error (PostageErr.nodeErr 0)) (Except.ok "b")).result =
      Except.ok "b" :=
  rfl

/-- C6 (amended): only node errors during ticket **purchase** propagate to
the caller of `CurrentBatchID` (a discovery failure — node error or no usable
stamp — falls back to a purchase attempt instead of propagating); on a
propagated purchase failure the ticket is not cached, so the next call
retries discovery/purchase from scratch. -/
theorem currentBatchID_purchase_error_propagates
    (stampsResp : Except PostageErr (List Stamp)) (e0 e : PostageErr)
    (hd : fetchFirstUsableStamp stampsResp = Except.error e0) :
    (CurrentBatchID "" stampsResp (Except.error e)).result = Except.error e ∧
    (CurrentBatchID "" stampsResp (Except.error e)).cache = "" ∧
    (∀ s' b', CurrentBatchID (CurrentBatchID "" stampsResp (Except.error e)).cache s' b' =
      CurrentBatchID "" s' b') := by
  have h1 : CurrentBatchID "" stampsResp (Except.error e) =
      ⟨Except.error e, "", 1, 1⟩ := by
    simp [CurrentBatchID, hd]
  refine ⟨by rw [h1], by rw [h1], ?_⟩
  intro s' b'
  rw [h1]

/-- Witness for the amended C6: empty stamp listing (discovery fails with
`errNoUsableBatch`), purchase fails with a node error — the node error
surfaces. -/
theorem currentBatchID_purchase_error_propagates_witness :
    fetchFirstUsableStamp (Except.ok ([] : List Stamp)) =
      Except.error PostageErr.noUsableBatch ∧
    (CurrentBatchID "" (Except.ok ([] : List Stamp))
      (Except.error (PostageErr.nodeErr 1))).result = Except.error (PostageErr.nodeErr 1) :=
  ⟨rfl, (currentBatchID_purchase_error_propagates (Except.ok []) PostageErr.noUsableBatch
    (PostageErr.nodeErr 1) rfl).1⟩

/-! ### C9: the ticket cache purchases at most once -/

/-- C9: with no cached ticket and a node reporting no usable stamps, the
first `CurrentBatchID` call makes exactly one purchase call and caches the
result; the second call serves the cache with zero listing and zero purchase
calls; and when the node reports an existing usable stamp, zero purchase
calls are made. -/
theorem ticket_cache_single_purchase (stamps : List Stamp) (b : String)
    (hnone : stamps.find? (fun st => st.Usable && st.Exists) = none) (hb : b ≠ "") :
    (CurrentBatchID "" (Except.ok stamps) (Except.ok b)).result = Except.ok b ∧
    (CurrentBatchID "" (Except.ok stamps) (Except.ok b)).buyCalls = 1 ∧
    (CurrentBatchID "" (Except.ok stamps) (Except.ok b)).cache = b ∧
    (∀ (s' : Except PostageErr (List Stamp)) (b' : Except PostageErr String),
      (CurrentBatchID (CurrentBatchID "" (Except.ok stamps) (Except.ok b)).cache s' b').result =
        Except.ok b ∧
      (CurrentBatchID (CurrentBatchID "" (Except.ok stamps) (Except.ok b)).cache s' b').stampsCalls
        = 0 ∧
      (CurrentBatchID (CurrentBatchID "" (Except.ok stamps) (Except.ok b)).cache s' b').buyCalls
        = 0) ∧
    (∀ (stamps' : List Stamp) (st : Stamp) (bResp : Except PostageErr String),
      stamps'.find? (fun s => s.Usable && s.Exists) = some st →
      (CurrentBatchID "" (Except.ok stamps') bResp).buyCalls = 0) := by
  have hf : fetchFirstUsableStamp (Except.ok stamps) = Except.error PostageErr.noUsableBatch := by
    simp [fetchFirstUsableStamp, hnone]
  have h1 : CurrentBatchID "" (Except.ok stamps) (Except.ok b) = ⟨Except.ok b, b, 1, 1⟩ := by
    simp [CurrentBatchID, hf]
  have h2 : ∀ s' b', CurrentBatchID b s' b' = ⟨Except.ok b, b, 0, 0⟩ := by
    intro s' b'
    simp [CurrentBatchID, hb]
  refine ⟨by rw [h1], by rw [h1], by rw [h1], ?_, ?_⟩
  · intro s' b'
    rw [h1]
    have h3 := h2 s' b'
    exact ⟨by rw [h3], by rw [h3], by rw [h3]⟩
  · intro stamps' st bResp hfind
    have hf' : fetchFirstUsableStamp (Except.ok stamps') = Except.ok st.BatchID := by
      simp [fetchFirstUsableStamp, hfind]
    simp [CurrentBatchID, hf']

/-- Witness for C9 at a concrete run: empty stamp list, purchase returns
`"b"`; the first call makes exactly one purchase. -/
theorem ticket_cache_single_purchase_witness :
    (([] : List Stamp).find? (fun st => st.Usable && st.Exists) = none) ∧
    ("b" ≠ "") ∧
    (CurrentBatchID "" (Except.ok ([] : List Stamp)) (Except.ok "b")).buyCalls = 1 :=
  ⟨rfl, by decide, (ticket_cache_single_purchase [] "b" rfl (by decide)).2.1⟩

/-! ### C8: `Has` agrees with `Get` and recovers exactly the not-found errors -/

/-- C8: `Has(k)` is true (with nil error) iff `Get(k)` succeeds; when `Get`
fails with one of the not-found errors (`errBzzDBNotFound` or
`client.ErrNotFound`), `Has` converts it to `(false, nil)`; every other `Get`
error propagates through `Has` unchanged; and `Has` is exactly this
post-processing of `Get`'s result. -/
theorem has_get_agreement (H : Bytes → Bytes) (owner : Bytes) (st : DBState) (key : Bytes) :
    ((dbHas H owner st key).1 = Except.ok true ↔
      ∃ v, (dbGet H owner st key).1 = Except.ok v) ∧
    (∀ e, (dbGet H owner st key).1 = Except.error e →
      ((e = BzzErr.notFound ∨ e = BzzErr.clientNotFound) →
        (dbHas H owner st key).1 = Except.ok false) ∧
      (¬(e = BzzErr.notFound ∨ e = BzzErr.clientNotFound) →
        (dbHas H owner st key).1 = Except.error e)) ∧
    (dbHas H owner st key).1 = hasFromGet (dbGet H owner st key).1 := by
  have hh : (dbHas H owner st key).1 = hasFromGet (dbGet H owner st key).1 := rfl
  refine ⟨?_, ?_, hh⟩
  · rw [hh]
    cases hg : (dbGet H owner st key).1 with
    | ok v =>
      constructor
      · intro _
        exact ⟨v, rfl⟩
      · intro _
        rfl
    | error e =>
      constructor
      · intro h
        exfalso
        revert h
        show (if e = BzzErr.notFound ∨ e = BzzErr.clientNotFound then Except.ok false
          else Except.error e) = Except.ok true → False
        split_ifs <;> intro h <;> simp at h
      · rintro ⟨v, hv⟩
        exact absurd hv (by simp)
  · intro e hg
    rw [hh, hg]
    constructor
    · intro he
      show (if e = BzzErr.notFound ∨ e = BzzErr.clientNotFound then Except.ok false
        else Except.error e) = Except.ok false
      rw [if_pos he]
    · intro he
      show (if e = BzzErr.notFound ∨ e = BzzErr.clientNotFound then Except.ok false
        else Except.error e) = Except.error e
      rw [if_neg he]

/-- Witness for C8: on a fresh store `Get` reports not-found and `Has`
downgrades it to `(false, nil)`. -/
theorem has_get_agreement_witness :
    (dbGet Hc owner0 st0 [1]).1 = Except.error BzzErr.notFound ∧
    (dbHas Hc owner0 st0 [1]).1 = Except.ok false :=
  ⟨rfl, ((has_get_agreement Hc owner0 st0 [1]).2.1 BzzErr.notFound rfl).1 (Or.inl rfl)⟩

/-! ### The state produced by `Put` and the value seen by a following `Get` -/

theorem uploadAsync_fst_socs (H : Bytes → Bytes) (node : NodeState) (value : Option Bytes) :
    (uploadAsync H node value).1.socs = node.socs := by
  cases value <;> rfl

theorem uploadAsync_fst_feedLatest (H : Bytes → Bytes) (node : NodeState)
    (value : Option Bytes) :
    (uploadAsync H node value).1.feedLatest = node.feedLatest := by
  cases value <;> rfl

/-- Assembling `dbPut`: once the acquired index and the inserted entry are
known, the state after `Put` is the indexer entry `⟨some i, i+1⟩` for the
topic, the blobs left by the (possibly skipped) value upload, and the signed
SOC stored at the derived address. -/
theorem dbPut_assemble (H : Bytes → Bytes) (owner : Bytes) (st : DBState) (key : Bytes)
    (value : Option Bytes) (i : Nat) (e : FeedIndexData)
    (hacq : FeedIndexer.AcquireNext st.node.feedLatest st.indexMap (makeTopic H key) =
      (i, upd st.indexMap (makeTopic H key) e))
    (hrel : FeedIndexer.releaseData e i = ⟨some i, i + 1⟩) :
    dbPut H owner st key value =
      ⟨upd st.indexMap (makeTopic H key) ⟨some i, i + 1⟩,
       ⟨(uploadAsync H st.node value).1.blobs,
        upd st.node.socs (H (FeedID H (makeTopic H key) i ++ owner))
          (makeSOCData (cacData (PayloadWithTime (uploadAsync H st.node value).2 0))),
        st.node.feedLatest⟩⟩ := by
  simp only [dbPut, UploadSoc, uploadAsync_fst_socs, uploadAsync_fst_feedLatest, hacq]
  rw [FeedIndexer.Release_lookup _ _ e i (upd_same st.indexMap (makeTopic H key) e),
    hrel, upd_upd]

/-- On a well-formed state, `Put` acquires some index `i` and leaves exactly
the shape described by `dbPut_assemble`. -/
theorem dbPut_shape (H : Bytes → Bytes) (owner : Bytes) (st : DBState) (key : Bytes)
    (value : Option Bytes) (hWF : dbWF st) :
    ∃ i : Nat, dbPut H owner st key value =
      ⟨upd st.indexMap (makeTopic H key) ⟨some i, i + 1⟩,
       ⟨(uploadAsync H st.node value).1.blobs,
        upd st.node.socs (H (FeedID H (makeTopic H key) i ++ owner))
          (makeSOCData (cacData (PayloadWithTime (uploadAsync H st.node value).2 0))),
        st.node.feedLatest⟩⟩ := by
  cases hm : st.indexMap (makeTopic H key) with
  | some d =>
    refine ⟨d.next, dbPut_assemble H owner st key value d.next ⟨d.current, d.next + 1⟩
      (FeedIndexer.AcquireNext_present _ _ _ d hm) ?_⟩
    rcases hc : d.current with _ | c
    · simp [FeedIndexer.releaseData]
    · have hlt : c < d.next := hWF.1 (makeTopic H key) d hm c hc
      simp only [FeedIndexer.releaseData]
      rw [if_pos (by omega)]
  | none =>
    rcases hWF.2 (makeTopic H key) with ⟨hC, hN⟩ | hlt
    · have hd0 : newFeedIndexData (st.node.feedLatest (makeTopic H key)) = ⟨none, 0⟩ := by
        simp [newFeedIndexData, hC, hN]
      refine ⟨0, dbPut_assemble H owner st key value 0 ⟨none, 1⟩ ?_ ?_⟩
      · rw [FeedIndexer.AcquireNext_unseen _ _ _ hm, hd0]
      · simp [FeedIndexer.releaseData]
    · have hd0 : newFeedIndexData (st.node.feedLatest (makeTopic H key)) =
          ⟨some (st.node.feedLatest (makeTopic H key)).Current,
           (st.node.feedLatest (makeTopic H key)).Next⟩ := by
        simp only [newFeedIndexData]
        rw [if_neg (by rintro ⟨h1, h2⟩; omega)]
      refine ⟨(st.node.feedLatest (makeTopic H key)).Next,
        dbPut_assemble H owner st key value _
          ⟨some (st.node.feedLatest (makeTopic H key)).Current,
           (st.node.feedLatest (makeTopic H key)).Next + 1⟩ ?_ ?_⟩
      · rw [FeedIndexer.AcquireNext_unseen _ _ _ hm, hd0]
      · simp only [FeedIndexer.releaseData]
        rw [if_pos (by omega)]

/-- What `Get` returns right after a `Put` of `value` on the same key (on a
well-formed state, with no interleaving writes): the deletion sentinel path
for a nil value, the blob round-trip otherwise (the degenerate hash value
`H v = zeroSocData` is indistinguishable from the sentinel). -/
theorem dbPut_then_get (H : Bytes → Bytes) (owner : Bytes) (st : DBState) (key : Bytes)
    (value : Option Bytes) (hWF : dbWF st) :
    (dbGet H owner (dbPut H owner st key value) key).1 =
      match value with
      | none => Except.error BzzErr.notFound
      | some v => if H v = zeroSocData then Except.error BzzErr.notFound else Except.ok v := by
  obtain ⟨i, hput⟩ := dbPut_shape H owner st key value hWF
  rw [hput]
  simp only [dbGet,
    FeedIndexer.Current_present _ _ _ ⟨some i, i + 1⟩ (upd_same st.indexMap _ _),
    FeedIndexer.currentPair, FeedUpdateReference, DownloadChunk, DownloadBytes,
    Bool.true_eq_false, if_false]
  rw [upd_same]
  dsimp only
  rw [rawData_mkSoc, stripTime]
  cases value with
  | none =>
    simp [uploadAsync]
  | some v =>
    simp only [uploadAsync, UploadBytes]
    by_cases h : H v = zeroSocData
    · simp [h]
    · simp [h, upd_same]

/-- C1: on a well-formed store, for every key and every byte-string value
(including the empty one), `Put(k, v)` followed by `Get(k)` with no
interleaving writes returns exactly `v`.  The hypothesis `H v ≠ zeroSocData`
is the hash-ideality assumption the design relies on: the content address of
the value must differ from the reserved all-zero deletion sentinel. -/
theorem put_get_roundtrip (H : Bytes → Bytes) (owner : Bytes) (st : DBState)
    (key v : Bytes) (hWF : dbWF st) (hz : H v ≠ zeroSocData) :
    (dbGet H owner (dbPut H owner st key (some v)) key).1 = Except.ok v := by
  rw [dbPut_then_get H owner st key (some v) hWF]
  exact if_neg hz

theorem st0_WF : dbWF st0 := by
  constructor
  · intro t d h
    exact Option.noConfusion h
  · intro t
    exact Or.inl ⟨rfl, rfl⟩

/-- Witness for C1 on a fresh store: `Put [2] [5]` then `Get [2]` yields
`[5]`. -/
theorem put_get_roundtrip_witness :
    dbWF st0 ∧ Hc [5] ≠ zeroSocData ∧
    (dbGet Hc owner0 (dbPut Hc owner0 st0 [2] (some [5])) [2]).1 = Except.ok [5] :=
  ⟨st0_WF, by decide, put_get_roundtrip Hc owner0 st0 [2] [5] st0_WF (by decide)⟩

/-! ### C7: delete-then-get reports not-found, like a never-written key -/

/-- C10: `Put` distinguishes a nil value from an empty non-nil value:
`uploadAsync` with nil skips the upload and yields the all-zero sentinel, so
`Put(k, nil)` is exactly `Delete(k)` and a following `Get(k)` reports
not-found; an empty non-nil value is uploaded as a real (empty) blob at its
content address, and a following `Get(k)` returns the empty byte string. -/
theorem put_nil_vs_put_empty (H : Bytes → Bytes) (owner : Bytes) (st : DBState)
    (key : Bytes) (node : NodeState) (hWF : dbWF st) (hz : H [] ≠ zeroSocData) :
    uploadAsync H node none = (node, zeroSocData) ∧
    dbPut H owner st key none = dbDelete H owner st key ∧
    (dbGet H owner (dbPut H owner st key none) key).1 = Except.error BzzErr.notFound ∧
    (uploadAsync H node (some [])).2 = H [] ∧
    (uploadAsync H node (some [])).1.blobs (H []) = some [] ∧
    (dbGet H owner (dbPut H owner st key (some [])) key).1 = Except.ok [] := by
  refine ⟨rfl, rfl, ?_, rfl, upd_same _ _ _, ?_⟩
  · exact dbPut_then_get H owner st key none hWF
  · rw [dbPut_then_get H owner st key (some []) hWF]
    exact if_neg hz

/-- Witness for C10 on a fresh store. -/
theorem put_nil_vs_put_empty_witness :
    dbWF st0 ∧ Hc [] ≠ zeroSocData ∧
    (dbGet Hc owner0 (dbPut Hc owner0 st0 [2] none) [2]).1 = Except.error BzzErr.notFound ∧
    (dbGet Hc owner0 (dbPut Hc owner0 st0 [2] (some [])) [2]).1 = Except.ok [] := by
  have h := put_nil_vs_put_empty Hc owner0 st0 [2] node0 st0_WF (by decide)
  exact ⟨st0_WF, by decide, h.2.2.1, h.2.2.2.2.2⟩

end EthOnBzz
